import Mathlib

/-!
# Budget Tracker — verification of the specification against the source

Shallow embedding of the Budget-Tracker repository's core logic:

* the `Transaction` data model (`src/types/transaction.ts`),
* the transaction store operations `deleteTransaction` and the load-time
  currency migration (`src/pages/Index.tsx`),
* the aggregation engine: per-currency totals (`totals`,
  `transactionsByCurrency` in `src/pages/Index.tsx`), the per-category
  expense breakdown (`expenseData` in `src/components/TransactionChart.tsx`),
  and the weekly/monthly time-bucketed expense trend (`getWeekYear`,
  `getMonthYear`, `grouped` in `SpendingLineChart`),
* the list view's filter/sort pipeline (`filteredTransactions` in
  `src/components/TransactionList.tsx`),
* the export pipeline's page-layout arithmetic (`exportAsPDF`,
  `exportMultipleCharts` in `src/lib/chartExport.ts`) and the error path of
  `exportChart` / `handleExport` (`ChartExportButton`).

JavaScript numbers are modelled as exact rationals (`ℚ`); the sums,
differences, minima and divisions performed by the code are embedded as the
corresponding exact operations, applied in the same order.  Dates are
modelled at day granularity as proleptic-Gregorian `year/month/day` triples
(the app stores dates as `YYYY-MM-DD` strings from a date input and uses
them only at day granularity); `Date.prototype.getTime` differences and
`getDay` are recovered from a day-number function.  JavaScript objects and
`Map`s used as accumulators are modelled as association lists in insertion
order, which matches the iteration order the code relies on for its
(non-numeric) string keys.
-/

namespace BudgetTracker

/-! ## Data model (`src/types/transaction.ts`) -/

/-- `type: 'income' | 'expense'`. -/
inductive TxType where
  | income
  | expense
deriving DecidableEq, BEq, Repr

/-- A calendar date at day granularity, as carried by the `date` field
(`YYYY-MM-DD` from the form's date input). -/
structure YMD where
  y : Nat
  m : Nat
  d : Nat
deriving DecidableEq, Repr

/-- A transaction record.  `currency : Option String` models a JavaScript
field that may be absent (`none`) on old persisted records; `some ""` models
a present but falsy value.  Amounts are exact rationals. -/
structure Transaction where
  id : String
  type : TxType
  amount : ℚ
  category : String
  date : YMD
  description : String
  currency : Option String
deriving DecidableEq, Repr

/-- JavaScript `c || d` on an optional string: `undefined` and `""` are
falsy, everything else is returned unchanged. -/
def jsOr (c : Option String) (d : String) : String :=
  match c with
  | none => d
  | some s => if s = "" then d else s

/-- The currency a transaction is accounted under: `t.currency || 'USD'`. -/
def currOf (t : Transaction) : String :=
  jsOr t.currency "USD"

/-! ## Transaction store operations (`src/pages/Index.tsx`) -/

/-- `deleteTransaction`: `setTransactions(prev => prev.filter(t => t.id !== id))`. -/
def deleteTransaction (ts : List Transaction) (id : String) : List Transaction :=
  ts.filter (fun t => !(t.id == id))

/-- One step of the load-time migration:
`{...t, currency: t.currency || 'USD'}` — the spread keeps every other field. -/
def migrateOne (t : Transaction) : Transaction :=
  { t with currency := some (jsOr t.currency "USD") }

/-- `migratedTransactions = parsedTransactions.map(t => ({...t, currency: t.currency || 'USD'}))`. -/
def migratedTransactions (l : List Transaction) : List Transaction :=
  l.map migrateOne

/-! ## Per-currency totals (`src/pages/Index.tsx`) -/

/-- Insert a transaction into the accumulator object keyed by currency,
appending to the existing bucket (first matching key) or creating a new
key at the end — JavaScript object insertion-order semantics. -/
def insertByCurrency (acc : List (String × List Transaction)) (c : String)
    (t : Transaction) : List (String × List Transaction) :=
  match acc with
  | [] => [(c, [t])]
  | (c', l) :: rest =>
    if c' = c then (c', l ++ [t]) :: rest
    else (c', l) :: insertByCurrency rest c t

/-- `transactionsByCurrency = transactions.reduce((acc, t) => {...}, {})`:
group the sequence by `t.currency || 'USD'`. -/
def transactionsByCurrency (ts : List Transaction) :
    List (String × List Transaction) :=
  ts.foldl (fun acc t => insertByCurrency acc (currOf t) t) []

/-- One row of the `totals` array: `{currency, income, expenses, savings}`. -/
structure CurrencyTotals where
  currency : String
  income : ℚ
  expenses : ℚ
  savings : ℚ
deriving DecidableEq, Repr

/-- The body of the `totals` mapping for one `[currency, txs]` entry:
`income = txs.filter(t => t.type === 'income').reduce((s, t) => s + t.amount, 0)`,
likewise for `expenses`, and `savings = income - expenses`. -/
def totalsRow (p : String × List Transaction) : CurrencyTotals :=
  let income := ((p.2.filter (fun t => t.type == TxType.income)).map
    Transaction.amount).sum
  let expenses := ((p.2.filter (fun t => t.type == TxType.expense)).map
    Transaction.amount).sum
  { currency := p.1, income := income, expenses := expenses,
    savings := income - expenses }

/-- `totals = Object.entries(transactionsByCurrency).map(([currency, txs]) => ...)`. -/
def totals (ts : List Transaction) : List CurrencyTotals :=
  (transactionsByCurrency ts).map totalsRow

/-- `defaultTotals = totals.find(t => t.currency === defaultCurrency) || {currency, income: 0, expenses: 0, savings: 0}`. -/
def defaultTotals (ts : List Transaction) (dc : String) : CurrencyTotals :=
  match (totals ts).find? (fun r => r.currency == dc) with
  | some r => r
  | none => { currency := dc, income := 0, expenses := 0, savings := 0 }

/-! ### Association-list lemmas for the currency grouping -/

/-- The bucket stored under key `c` (first matching entry), `[]` if absent. -/
def bucketOf (acc : List (String × List Transaction)) (c : String) :
    List Transaction :=
  match acc.find? (fun p => p.1 == c) with
  | some p => p.2
  | none => []

/-! ## Per-category expense breakdown (`src/components/TransactionChart.tsx`) -/

/-- `acc[category] = (acc[category] ?? 0) + amount` on a JavaScript object:
add to the first entry with the key, or append a new key at the end. -/
def addToBucket (acc : List (String × ℚ)) (k : String) (v : ℚ) :
    List (String × ℚ) :=
  match acc with
  | [] => [(k, v)]
  | (k', v') :: rest =>
    if k' = k then (k', v' + v) :: rest
    else (k', v') :: addToBucket rest k v

/-- `expenseData`: filter the transactions down to the selected currency
(`(t.currency || 'USD') === selectedCurrency`), keep `type === 'expense'`,
and accumulate amounts per category. -/
def expenseData (ts : List Transaction) (c : String) : List (String × ℚ) :=
  ((ts.filter (fun t => currOf t == c)).filter
      (fun t => t.type == TxType.expense)).foldl
    (fun acc t => addToBucket acc t.category t.amount) []

/-! Sample records (the scenario of the specification's §8, plus an
EUR record and a legacy record without currency), shared by witnesses. -/

def txA : Transaction :=
  { id := "a", type := TxType.expense, amount := 50, category := "Food",
    date := ⟨2024, 1, 5⟩, description := "groceries", currency := some "USD" }

def txB : Transaction :=
  { id := "b", type := TxType.income, amount := 2000, category := "Salary",
    date := ⟨2024, 1, 10⟩, description := "", currency := some "USD" }

def txC : Transaction :=
  { id := "c", type := TxType.expense, amount := 30, category := "Food",
    date := ⟨2024, 2, 1⟩, description := "", currency := some "USD" }

def txE : Transaction :=
  { id := "e", type := TxType.expense, amount := 10, category := "Travel",
    date := ⟨2023, 12, 31⟩, description := "", currency := some "EUR" }

def txN : Transaction :=
  { id := "n", type := TxType.income, amount := 5, category := "Gift",
    date := ⟨2024, 3, 15⟩, description := "old record", currency := none }

/-! ## Export page layout (`src/lib/chartExport.ts`) -/

/-- Final image dimensions and placement on one document page. -/
structure PageLayout where
  finalW : ℚ
  finalH : ℚ
  x : ℚ
  y : ℚ
deriving DecidableEq, Repr

/-- The scaling step both export functions share verbatim:
start from the bitmap's native dimensions and, only when it is too large for
the available space, multiply both by `Math.min(scaleX, scaleY)`. -/
def fitWithin (availW availH imgW imgH : ℚ) : ℚ × ℚ :=
  if imgW > availW ∨ imgH > availH then
    (imgW * min (availW / imgW) (availH / imgH),
     imgH * min (availW / imgW) (availH / imgH))
  else (imgW, imgH)

/-- Page layout of `exportMultipleCharts` (one page per chart):
`topMargin = 25`, `bottomMargin = 20`, `leftRightMargin = 30`;
`x = (pdfWidth - finalWidth) / 2`,
`y = topMargin + (availableHeight - finalHeight) / 2`. -/
def multiChartLayout (pdfW pdfH imgW imgH : ℚ) : PageLayout :=
  let availableHeight := pdfH - 25 - 20
  let f := fitWithin (pdfW - 30 * 2) availableHeight imgW imgH
  { finalW := f.1, finalH := f.2,
    x := (pdfW - f.1) / 2, y := 25 + (availableHeight - f.2) / 2 }

/-- Page layout of the single-chart `exportAsPDF`:
`maxWidth = pdfWidth - 40` (20 mm side margins),
`maxHeight = pdfHeight - 60` (30 mm top and bottom margins);
`x = (pdfWidth - finalWidth) / 2`, but `y = subtitle ? 45 : 35` — a fixed
offset below the title, independent of the image height. -/
def singleChartLayout (pdfW pdfH imgW imgH : ℚ) (hasSubtitle : Bool) :
    PageLayout :=
  let f := fitWithin (pdfW - 40) (pdfH - 60) imgW imgH
  { finalW := f.1, finalH := f.2,
    x := (pdfW - f.1) / 2, y := if hasSubtitle then 45 else 35 }

/-! ## Export error path (`src/lib/chartExport.ts`, `ChartExportButton`) -/

/-- A captured bitmap with its pixel dimensions. -/
structure Bitmap where
  width : Nat
  height : Nat
deriving DecidableEq, Repr

/-- `exportChart` wraps capture and download/assembly in `try/catch` and
rethrows any failure as `Error('Failed to export chart')`.  The capture is
performed by the external rasterizer (html2canvas), outside this repository;
its outcome is passed in as an argument, `none` standing for a capture that
produced no content (zero-size region / capture failure — the spec's
`EmptyCapture`). -/
def exportChart (captureResult : Option Bitmap) : Except String Unit :=
  match captureResult with
  | some _ => Except.ok ()
  | none => Except.error "Failed to export chart"

/-- The session state `handleExport` can observe: the transaction list and
the export-button busy flag. -/
structure Session where
  transactions : List Transaction
  isExporting : Bool
deriving DecidableEq, Repr

/-- A `toast(...)` notification. -/
structure Toast where
  title : String
  message : String
  destructive : Bool
deriving DecidableEq, Repr

/-- `handleExport` in `ChartExportButton`: a missing chart element
(`!chartRef.current`, the spec's `RegionNotFound`) reports a failure toast
and returns early; otherwise `exportChart` is awaited inside `try/catch`,
a failure is caught and reported as a destructive toast, and the `finally`
block clears the busy flag.  The handler never touches the transaction
list. -/
def handleExport (st : Session) (region : Option (Option Bitmap)) :
    Session × Toast :=
  match region with
  | none =>
    (st, { title := "Export Failed", message := "Chart element not found",
           destructive := true })
  | some captureResult =>
    match exportChart captureResult with
    | Except.ok _ =>
      ({ st with isExporting := false },
       { title := "Export Successful", message := "Chart exported",
         destructive := false })
    | Except.error _ =>
      ({ st with isExporting := false },
       { title := "Export Failed",
         message := "Failed to export chart. Please try again.",
         destructive := true })

/-! ## Calendar model

The app stores dates as `YYYY-MM-DD` strings (HTML date input) and consumes
them through `new Date(...)` at day granularity only.  `dateNum` is the
proleptic-Gregorian day number (`dateNum ⟨1,1,1⟩ = 1`); the JavaScript
`getTime()` of such a date is `(dateNum d - dateNum ⟨1970,1,1⟩) * 86400000`,
so differences and comparisons of `getTime()` values correspond to those of
`dateNum`, and `getDay()` (0 = Sunday) equals `dateNum d % 7` (day 1,
January 1 of year 1, is a Monday). -/

def isLeap (y : Nat) : Bool :=
  (y % 4 == 0 && y % 100 != 0) || y % 400 == 0

def daysInMonth (leap : Bool) (m : Nat) : Nat :=
  match m with
  | 1 => 31 | 2 => if leap then 29 else 28 | 3 => 31 | 4 => 30 | 5 => 31
  | 6 => 30 | 7 => 31 | 8 => 31 | 9 => 30 | 10 => 31 | 11 => 30 | 12 => 31
  | _ => 0

def daysBeforeMonth (leap : Bool) : Nat → Nat
  | 0 => 0
  | 1 => 0
  | m + 1 => daysBeforeMonth leap m + daysInMonth leap m

/-- 1-based ordinal of the day within its year (`YYYY-01-01` ↦ 1). -/
def dayOfYear (d : YMD) : Nat :=
  daysBeforeMonth (isLeap d.y) d.m + d.d

def daysBeforeYear (y : Nat) : Nat :=
  365 * (y - 1) + (y - 1) / 4 + (y - 1) / 400 - (y - 1) / 100

/-- Proleptic-Gregorian day number, `dateNum ⟨1,1,1⟩ = 1`. -/
def dateNum (d : YMD) : Nat :=
  daysBeforeYear d.y + dayOfYear d

/-- JavaScript `Date.prototype.getDay`: 0 = Sunday … 6 = Saturday. -/
def jsGetDay (d : YMD) : Nat :=
  dateNum d % 7

/-- A well-formed calendar date (month 1–12, day within the month). -/
def ValidDate (d : YMD) : Prop :=
  1 ≤ d.m ∧ d.m ≤ 12 ∧ 1 ≤ d.d ∧ d.d ≤ daysInMonth (isLeap d.y) d.m

instance (d : YMD) : Decidable (ValidDate d) :=
  inferInstanceAs (Decidable (_ ∧ _ ∧ _ ∧ _))

/-! ## List view filter and sort (`src/components/TransactionList.tsx`) -/

/-- JavaScript `toLowerCase`, modelled as per-character lowering. -/
def lowerStr (s : String) : String :=
  String.mk (s.toList.map Char.toLower)

/-- JavaScript `s.includes(sub)` (substring containment). -/
def containsSub (s sub : String) : Bool :=
  decide (sub.toList <:+: s.toList)

/-- The string a `Transaction['type']` compares against the type filter. -/
def typeStr : TxType → String
  | TxType.income => "income"
  | TxType.expense => "expense"

/-- The filter predicate of the list view: case-insensitive substring match
of the search term against description OR category, AND exact type, category
and currency matches when the respective filter is not `'all'` (currency
compared after the "USD" default). -/
def matchesFilters (searchTerm filterType filterCategory filterCurrency :
    String) (t : Transaction) : Bool :=
  (containsSub (lowerStr t.description) (lowerStr searchTerm) ||
    containsSub (lowerStr t.category) (lowerStr searchTerm)) &&
  (filterType == "all" || typeStr t.type == filterType) &&
  (filterCategory == "all" || t.category == filterCategory) &&
  (filterCurrency == "all" || currOf t == filterCurrency)

/-- The sort comparator: `date` compares `getTime()` descending (modelled by
`dateNum`), `amount` compares amounts descending, `category` is
`a.category.localeCompare(b.category)` ascending (modelled by the order on
strings), any other key returns `0`. -/
def compareTx (sortBy : String) (a b : Transaction) : ℚ :=
  if sortBy = "date" then (dateNum b.date : ℚ) - (dateNum a.date : ℚ)
  else if sortBy = "amount" then b.amount - a.amount
  else if sortBy = "category" then
    (if a.category < b.category then -1
     else if a.category = b.category then 0 else 1)
  else 0

/-- `filteredTransactions = transactions.filter(...).sort(...)`; the sort is
stable (ES2019) and modelled by `mergeSort` with `compareTx _ a b ≤ 0` as
the keep-in-order relation. -/
def filteredTransactions (ts : List Transaction)
    (searchTerm filterType filterCategory filterCurrency sortBy : String) :
    List Transaction :=
  (ts.filter
    (matchesFilters searchTerm filterType filterCategory filterCurrency)).mergeSort
    (fun a b => decide (compareTx sortBy a b ≤ 0))

/-! ## Time-bucketed expense trend (`SpendingLineChart`)

`getWeekYear`/`getMonthYear` build bucket keys by JavaScript template
interpolation of decimal numbers.  `natStr` embeds `String(n)` (decimal
rendering) via a fuel-indexed structural recursion (`fuel = n + 1` always
suffices), and `pad2` embeds `String(n).padStart(2, "0")`. -/

/-- The decimal digit character for `n < 10`. -/
def digitChar (n : Nat) : Char :=
  Char.ofNat (48 + n)

def natDigitsAux : Nat → Nat → List Char → List Char
  | 0, _, acc => acc
  | fuel + 1, n, acc =>
    if n < 10 then digitChar n :: acc
    else natDigitsAux fuel (n / 10) (digitChar (n % 10) :: acc)

/-- JavaScript `String(n)` for a natural number. -/
def natStr (n : Nat) : String :=
  String.mk (natDigitsAux (n + 1) n [])

/-- JavaScript `String(n).padStart(2, "0")`. -/
def pad2 (n : Nat) : String :=
  if n < 10 then "0" ++ natStr n else natStr n

/-- The week number of `getWeekYear`:
`Math.ceil((pastDaysOfYear + firstDayOfYear.getDay() + 1) / 7)` with
`pastDaysOfYear = dayOfYear - 1`; on naturals `Math.ceil(x / 7) = (x + 6) / 7`. -/
def weekNum (d : YMD) : Nat :=
  ((dayOfYear d - 1) + jsGetDay ⟨d.y, 1, 1⟩ + 1 + 6) / 7

/-- `getWeekYear(date)` = `` `${year}-W${String(week).padStart(2, "0")}` ``. -/
def getWeekYear (d : YMD) : String :=
  natStr d.y ++ "-W" ++ pad2 (weekNum d)

/-- `getMonthYear(date)` = `` `${year}-${String(month + 1).padStart(2, "0")}` ``
(`getMonth()` is 0-based, so `getMonth() + 1 = d.m`). -/
def getMonthYear (d : YMD) : String :=
  natStr d.y ++ "-" ++ pad2 d.m

/-- The chart's `period` prop. -/
inductive Period where
  | weekly
  | monthly
deriving DecidableEq, Repr

/-- `period === "weekly" ? getWeekYear(date) : getMonthYear(date)`. -/
def bucketKey : Period → YMD → String
  | Period.weekly, d => getWeekYear d
  | Period.monthly, d => getMonthYear d

/-- `Array.from(map.entries()).sort(([a], [b]) => a.localeCompare(b))`:
ascending sort by key string. -/
def sortByKey (l : List (String × ℚ)) : List (String × ℚ) :=
  l.mergeSort (fun p q => decide (p.1 ≤ q.1))

/-- `grouped`: filter to `type === "expense"` of the selected currency, fold
the amounts into a key-indexed map (`map.set(key, (map.get(key) || 0) + t.amount)`,
insertion order preserved), and sort the entries by key. -/
def grouped (ts : List Transaction) (c : String) (p : Period) :
    List (String × ℚ) :=
  sortByKey
    ((ts.filter (fun t => t.type == TxType.expense && currOf t == c)).foldl
      (fun m t => addToBucket m (bucketKey p t.date) t.amount) [])

/-- Chronological order on dates, at day granularity. -/
def chronLE (d1 d2 : YMD) : Prop :=
  d1.y < d2.y ∨ (d1.y = d2.y ∧
    (d1.m < d2.m ∨ (d1.m = d2.m ∧ d1.d ≤ d2.d)))

instance (d1 d2 : YMD) : Decidable (chronLE d1 d2) :=
  inferInstanceAs (Decidable (_ ∨ _))

/-! ### The key-indexed accumulator map -/

def keysOf (m : List (String × ℚ)) : List String :=
  m.map Prod.fst

/-- `map.get(k)` (first entry with key `k`). -/
def lookupQ (m : List (String × ℚ)) (k : String) : Option ℚ :=
  (m.find? (fun q => q.1 == k)).map Prod.snd

/-- `map.get(k) || 0`. -/
def lookupD (m : List (String × ℚ)) (k : String) : ℚ :=
  (lookupQ m k).getD 0

/-! ## Theorems -/

theorem insertByCurrency_nil (c : String) (t : Transaction) :
    insertByCurrency [] c t = [(c, [t])] := rfl

theorem insertByCurrency_cons (k : String) (l : List Transaction)
    (rest : List (String × List Transaction)) (c : String) (t : Transaction) :
    insertByCurrency ((k, l) :: rest) c t =
      if k = c then (k, l ++ [t]) :: rest
      else (k, l) :: insertByCurrency rest c t := rfl

theorem bucketOf_nil (c : String) : bucketOf [] c = [] := rfl

theorem bucketOf_cons (k : String) (l : List Transaction)
    (rest : List (String × List Transaction)) (c : String) :
    bucketOf ((k, l) :: rest) c = if k = c then l else bucketOf rest c := by
  by_cases h : k = c <;> simp [bucketOf, List.find?_cons, h]

theorem bucketOf_insertByCurrency (acc : List (String × List Transaction))
    (c' c : String) (t : Transaction) :
    bucketOf (insertByCurrency acc c' t) c =
      bucketOf acc c ++ (if c' = c then [t] else []) := by
  induction acc with
  | nil =>
    by_cases h : c' = c <;>
      simp [insertByCurrency_nil, bucketOf_cons, bucketOf_nil, h]
  | cons p rest ih =>
    obtain ⟨k, l⟩ := p
    by_cases hk : k = c'
    · rw [insertByCurrency_cons, if_pos hk]
      by_cases h : k = c
      · have hc : c' = c := hk ▸ h
        simp [bucketOf_cons, h, hc]
      · have hc : ¬ c' = c := fun hh => h (hk.trans hh)
        simp [bucketOf_cons, h, hc]
    · rw [insertByCurrency_cons, if_neg hk]
      by_cases h : k = c
      · have hc : ¬ c' = c := fun hh => hk (h.trans hh.symm)
        simp [bucketOf_cons, h, hc]
      · simp only [bucketOf_cons, if_neg h]
        exact ih

theorem bucketOf_foldl (ts : List Transaction)
    (acc : List (String × List Transaction)) (c : String) :
    bucketOf (ts.foldl (fun acc t => insertByCurrency acc (currOf t) t) acc) c =
      bucketOf acc c ++ ts.filter (fun t => currOf t == c) := by
  induction ts generalizing acc with
  | nil => simp
  | cons t rest ih =>
    simp only [List.foldl_cons, ih, bucketOf_insertByCurrency, List.filter_cons]
    by_cases h : currOf t = c <;> simp [h, List.append_assoc]

theorem bucketOf_transactionsByCurrency (ts : List Transaction) (c : String) :
    bucketOf (transactionsByCurrency ts) c =
      ts.filter (fun t => currOf t == c) := by
  simpa [bucketOf, List.find?] using bucketOf_foldl ts [] c

/-- Every entry of the grouping either was in the accumulator already or
carries the inserted key. -/
theorem mem_insertByCurrency (acc : List (String × List Transaction))
    (c : String) (t : Transaction) (p : String × List Transaction) :
    p ∈ insertByCurrency acc c t → p ∈ acc ∨ p.1 = c := by
  induction acc with
  | nil =>
    intro h
    simp only [insertByCurrency_nil, List.mem_singleton] at h
    subst h; right; rfl
  | cons q rest ih =>
    obtain ⟨k, l⟩ := q
    intro h
    by_cases hk : k = c
    · rw [insertByCurrency_cons, if_pos hk] at h
      rcases List.mem_cons.mp h with h | h
      · subst h; right; exact hk
      · left; exact List.mem_cons_of_mem _ h
    · rw [insertByCurrency_cons, if_neg hk] at h
      rcases List.mem_cons.mp h with h | h
      · subst h; left; exact List.mem_cons_self _ _
      · rcases ih h with h' | h'
        · left; exact List.mem_cons_of_mem _ h'
        · right; exact h'

/-- Every key of the grouping is the (defaulted) currency of some transaction. -/
theorem mem_transactionsByCurrency {ts : List Transaction}
    {p : String × List Transaction} (h : p ∈ transactionsByCurrency ts) :
    ∃ t ∈ ts, currOf t = p.1 := by
  suffices H : ∀ (acc : List (String × List Transaction)),
      p ∈ ts.foldl (fun acc t => insertByCurrency acc (currOf t) t) acc →
      p ∈ acc ∨ ∃ t ∈ ts, currOf t = p.1 by
    rcases H [] h with h' | h'
    · simp at h'
    · exact h'
  clear h
  induction ts with
  | nil => intro acc h; left; simpa using h
  | cons t rest ih =>
    intro acc h
    simp only [List.foldl_cons] at h
    rcases ih _ h with h' | h'
    · rcases mem_insertByCurrency _ _ _ _ h' with h'' | h''
      · left; exact h''
      · right; exact ⟨t, List.mem_cons_self _ _, h''.symm⟩
    · rcases h' with ⟨u, hu, hcu⟩
      right; exact ⟨u, List.mem_cons_of_mem _ hu, hcu⟩

theorem bucketOf_eq_of_find?_eq_some {acc : List (String × List Transaction)}
    {c : String} {p : String × List Transaction}
    (h : acc.find? (fun q => q.1 == c) = some p) : bucketOf acc c = p.2 := by
  unfold bucketOf
  rw [h]

theorem bucketOf_eq_nil_of_find?_eq_none {acc : List (String × List Transaction)}
    {c : String} (h : acc.find? (fun q => q.1 == c) = none) :
    bucketOf acc c = [] := by
  unfold bucketOf
  rw [h]

theorem find?_totals (ts : List Transaction) (c : String) :
    (totals ts).find? (fun r => r.currency == c) =
      Option.map totalsRow
        ((transactionsByCurrency ts).find? (fun p => p.1 == c)) := by
  unfold totals
  exact List.find?_map totalsRow (transactionsByCurrency ts)

/-- If the grouping has no entry for `c`, no transaction is accounted
under `c`. -/
theorem filter_eq_nil_of_find?_none {ts : List Transaction} {c : String}
    (h : (transactionsByCurrency ts).find? (fun p => p.1 == c) = none) :
    ts.filter (fun t => currOf t == c) = [] := by
  rw [← bucketOf_transactionsByCurrency ts c]
  exact bucketOf_eq_nil_of_find?_eq_none h

/-- If the grouping finds entry `p` for `c`, its bucket is exactly the
transactions accounted under `c`. -/
theorem bucket_eq_filter_of_find?_some {ts : List Transaction} {c : String}
    {p : String × List Transaction}
    (h : (transactionsByCurrency ts).find? (fun q => q.1 == c) = some p) :
    p.2 = ts.filter (fun t => currOf t == c) := by
  rw [← bucketOf_transactionsByCurrency ts c]
  exact (bucketOf_eq_of_find?_eq_some h).symm

/-- **C1.** The per-currency totals computation partitions the transactions by
their currency field (with "USD" substituted for an absent currency): the
record that `totals` holds for a currency `c` reports as income exactly the
sum of the amounts of the `type = income` transactions accounted under `c`,
as expenses exactly the sum of the amounts of the `type = expense`
transactions accounted under `c`, and as balance (`savings`) the difference
`income - expenses`; no amount of a transaction of another currency
contributes.  When no transaction is accounted under `c`, `totals` has no
record for `c`. -/
theorem totals_partition_correct (ts : List Transaction) (c : String) :
    match (totals ts).find? (fun r => r.currency == c) with
    | some r =>
        r.income = ((ts.filter (fun t =>
            t.type == TxType.income && currOf t == c)).map Transaction.amount).sum ∧
        r.expenses = ((ts.filter (fun t =>
            t.type == TxType.expense && currOf t == c)).map Transaction.amount).sum ∧
        r.savings = r.income - r.expenses
    | none => ts.filter (fun t => currOf t == c) = [] := by
  rw [find?_totals]
  cases hfind : (transactionsByCurrency ts).find? (fun p => p.1 == c) with
  | none =>
    exact filter_eq_nil_of_find?_none hfind
  | some p =>
    have hb : p.2 = ts.filter (fun t => currOf t == c) :=
      bucket_eq_filter_of_find?_some hfind
    refine ⟨?_, ?_, rfl⟩
    · show ((p.2.filter (fun t => t.type == TxType.income)).map
        Transaction.amount).sum = _
      rw [hb, List.filter_filter]
    · show ((p.2.filter (fun t => t.type == TxType.expense)).map
        Transaction.amount).sum = _
      rw [hb, List.filter_filter]

/-- **C9.** If no transaction (after the "USD" default) has the selected
default currency, the dashboard totals substitute a zero record: income,
expenses and savings all `0`, rather than an error or an absent value. -/
theorem defaultTotals_zero_when_absent (ts : List Transaction) (dc : String)
    (h : ∀ t ∈ ts, currOf t ≠ dc) :
    defaultTotals ts dc =
      { currency := dc, income := 0, expenses := 0, savings := 0 } := by
  cases hfind : (totals ts).find? (fun r => r.currency == dc) with
  | none =>
    unfold defaultTotals
    rw [hfind]
  | some r =>
    exfalso
    have hr : r ∈ totals ts := List.mem_of_find?_eq_some hfind
    have hc := List.find?_some hfind
    simp only [beq_iff_eq] at hc
    unfold totals at hr
    rcases List.mem_map.mp hr with ⟨p, hp, hfp⟩
    rcases mem_transactionsByCurrency hp with ⟨t, ht, hct⟩
    have hcur : p.1 = dc := by
      have h2 : (totalsRow p).currency = dc := by rw [hfp]; exact hc
      simpa [totalsRow] using h2
    exact h t ht (hct.trans hcur)

/-- **C9 witness.** A store holding only USD transactions reports an
all-zero record for an absent default currency. -/
theorem defaultTotals_zero_when_absent_witness :
    defaultTotals
      [{ id := "a", type := TxType.expense, amount := 50, category := "Food",
         date := ⟨2024, 1, 5⟩, description := "", currency := some "USD" }] "GBP" =
      { currency := "GBP", income := 0, expenses := 0, savings := 0 } :=
  defaultTotals_zero_when_absent _ "GBP" (by decide)

theorem addToBucket_nil (k : String) (v : ℚ) : addToBucket [] k v = [(k, v)] := rfl

theorem addToBucket_cons (k' : String) (v' : ℚ) (rest : List (String × ℚ))
    (k : String) (v : ℚ) :
    addToBucket ((k', v') :: rest) k v =
      if k' = k then (k', v' + v) :: rest
      else (k', v') :: addToBucket rest k v := rfl

/-- Adding `v` under any key increases the total of the bucket values by `v`. -/
theorem valuesSum_addToBucket (acc : List (String × ℚ)) (k : String) (v : ℚ) :
    ((addToBucket acc k v).map Prod.snd).sum = (acc.map Prod.snd).sum + v := by
  induction acc with
  | nil => simp [addToBucket_nil]
  | cons p rest ih =>
    obtain ⟨k', v'⟩ := p
    by_cases h : k' = k
    · rw [addToBucket_cons, if_pos h]
      simp only [List.map_cons, List.sum_cons]
      ring
    · rw [addToBucket_cons, if_neg h]
      simp only [List.map_cons, List.sum_cons, ih]
      ring

/-- Folding a transaction list into category buckets adds exactly the sum of
its amounts to the total of the bucket values. -/
theorem valuesSum_foldBuckets (l : List Transaction)
    (acc : List (String × ℚ)) :
    ((l.foldl (fun acc t => addToBucket acc t.category t.amount) acc).map
      Prod.snd).sum = (acc.map Prod.snd).sum + (l.map Transaction.amount).sum := by
  induction l generalizing acc with
  | nil => simp
  | cons t rest ih =>
    simp only [List.foldl_cons, ih, valuesSum_addToBucket, List.map_cons,
      List.sum_cons]
    ring

/-- **C2.** The per-category expense breakdown for a currency sums, over all
category buckets, to exactly the total expenses that the per-currency totals
computation reports for that currency (and to `0` when the currency has no
totals record). -/
theorem expenseData_sums_to_totals (ts : List Transaction) (c : String) :
    ((expenseData ts c).map Prod.snd).sum =
      match (totals ts).find? (fun r => r.currency == c) with
      | some r => r.expenses
      | none => 0 := by
  have h1 : ((expenseData ts c).map Prod.snd).sum =
      (((ts.filter (fun t => currOf t == c)).filter
        (fun t => t.type == TxType.expense)).map Transaction.amount).sum := by
    unfold expenseData
    simpa using valuesSum_foldBuckets _ []
  rw [find?_totals]
  cases hfind : (transactionsByCurrency ts).find? (fun p => p.1 == c) with
  | none =>
    rw [h1, filter_eq_nil_of_find?_none hfind]
    simp
  | some p =>
    have hb : p.2 = ts.filter (fun t => currOf t == c) :=
      bucket_eq_filter_of_find?_some hfind
    show _ = (totalsRow p).expenses
    rw [h1, ← hb]
    rfl

/-! ## Delete (`src/pages/Index.tsx`), claims C5 and C10 -/

/-- **C10.** `deleteTransaction` keeps exactly the records whose id differs
from the given one: a record is retained iff it was in the store and its id
is not the deleted id, and afterwards no record with the deleted id remains —
if several records share the id, all of them go in a single delete. -/
theorem deleteTransaction_removes_all_matching (ts : List Transaction)
    (id : String) :
    (∀ t : Transaction, t ∈ deleteTransaction ts id ↔ (t ∈ ts ∧ t.id ≠ id)) ∧
    (deleteTransaction ts id).filter (fun t => t.id == id) = [] := by
  constructor
  · intro t
    simp [deleteTransaction, List.mem_filter]
  · unfold deleteTransaction
    rw [List.filter_filter]
    simp

/-- **C5.** With unique ids, deleting an id present in the store removes
exactly one record — the matching one — keeping all the others in their
original relative order; deleting an absent id is a no-op. -/
theorem deleteTransaction_unique_ids (ts : List Transaction) (id : String)
    (hnodup : (ts.map Transaction.id).Nodup) :
    ((∀ t ∈ ts, t.id ≠ id) → deleteTransaction ts id = ts) ∧
    (∀ l1 t l2, ts = l1 ++ t :: l2 → t.id = id →
      deleteTransaction ts id = l1 ++ l2) := by
  constructor
  · intro h
    apply List.filter_eq_self.mpr
    intro t ht
    simpa using h t ht
  · intro l1 t l2 hts hid
    subst hts
    subst hid
    rw [List.map_append, List.map_cons] at hnodup
    rw [List.nodup_append] at hnodup
    obtain ⟨h1, h2, hdisj⟩ := hnodup
    have hnotl2 : t.id ∉ l2.map Transaction.id := (List.nodup_cons.mp h2).1
    have hnotl1 : t.id ∉ l1.map Transaction.id := by
      intro hmem
      exact hdisj hmem (List.mem_cons_self _ _)
    unfold deleteTransaction
    rw [List.filter_append, List.filter_cons]
    have hkeep1 : l1.filter (fun u => !(u.id == t.id)) = l1 := by
      apply List.filter_eq_self.mpr
      intro u hu
      simp only [Bool.not_eq_eq_eq_not, Bool.not_true, beq_eq_false_iff_ne]
      intro hequ
      exact hnotl1 (hequ ▸ List.mem_map_of_mem Transaction.id hu)
    have hkeep2 : l2.filter (fun u => !(u.id == t.id)) = l2 := by
      apply List.filter_eq_self.mpr
      intro u hu
      simp only [Bool.not_eq_eq_eq_not, Bool.not_true, beq_eq_false_iff_ne]
      intro hequ
      exact hnotl2 (hequ ▸ List.mem_map_of_mem Transaction.id hu)
    simp [hkeep1, hkeep2]

/-- **C5 witness.** Deleting id "b" from `[txA, txB, txC]` (unique ids)
removes exactly `txB` and keeps `txA, txC` in order. -/
theorem deleteTransaction_unique_ids_witness :
    deleteTransaction [txA, txB, txC] "b" = [txA, txC] :=
  (deleteTransaction_unique_ids [txA, txB, txC] "b" (by decide)).2
    [txA] txB [txC] rfl rfl

/-! ## Load-time currency migration (`src/pages/Index.tsx`), claim C6 -/

/-- **C6.** The load-time migration is a per-record map that preserves the
number and order of records and every field except `currency`: a record
lacking a currency gets `"USD"`, and a record with a present truthy currency
keeps it unchanged. -/
theorem migration_defaults_currency (l : List Transaction) :
    (migratedTransactions l).length = l.length ∧
    (∀ i, ∀ h : i < l.length, ∀ h' : i < (migratedTransactions l).length,
      ((migratedTransactions l)[i]).id = (l[i]).id ∧
      ((migratedTransactions l)[i]).type = (l[i]).type ∧
      ((migratedTransactions l)[i]).amount = (l[i]).amount ∧
      ((migratedTransactions l)[i]).category = (l[i]).category ∧
      ((migratedTransactions l)[i]).date = (l[i]).date ∧
      ((migratedTransactions l)[i]).description = (l[i]).description ∧
      ((l[i]).currency = none →
        ((migratedTransactions l)[i]).currency = some "USD") ∧
      (∀ c, (l[i]).currency = some c → c ≠ "" →
        ((migratedTransactions l)[i]).currency = some c)) := by
  refine ⟨List.length_map _ _, ?_⟩
  intro i h h'
  have hm : (migratedTransactions l)[i] = migrateOne (l[i]) := by
    simp [migratedTransactions]
  rw [hm]
  unfold migrateOne
  refine ⟨rfl, rfl, rfl, rfl, rfl, rfl, ?_, ?_⟩
  · intro hc
    simp [jsOr, hc]
  · intro c hc hne
    simp [jsOr, hc, hne]

/-- **C6 witness.** Migrating `[txN, txE]` (one legacy record without a
currency, one EUR record) defaults the first to "USD", keeps "EUR" on the
second, and preserves length and the other fields. -/
theorem migration_defaults_currency_witness :
    (migratedTransactions [txN, txE]).length = 2 ∧
    ((migratedTransactions [txN, txE]).get ⟨0, by decide⟩).currency = some "USD" ∧
    ((migratedTransactions [txN, txE]).get ⟨1, by decide⟩).currency = some "EUR" ∧
    ((migratedTransactions [txN, txE]).get ⟨0, by decide⟩).description =
      txN.description := by
  obtain ⟨hlen, hfields⟩ := migration_defaults_currency [txN, txE]
  have h0 := hfields 0 (by decide) (by decide)
  have h1 := hfields 1 (by decide) (by decide)
  refine ⟨by simpa using hlen, ?_, ?_, ?_⟩
  · exact h0.2.2.2.2.2.2.1 rfl
  · exact h1.2.2.2.2.2.2.2 "EUR" rfl (by decide)
  · exact h0.2.2.2.2.2.1

/-- The shared scaling step: preserves aspect ratio, fits the available
space, never up-scales, and is the identity when the bitmap already fits. -/
theorem fitWithin_spec (availW availH imgW imgH : ℚ)
    (hW : 0 < imgW) (hH : 0 < imgH) :
    (fitWithin availW availH imgW imgH).1 * imgH =
      (fitWithin availW availH imgW imgH).2 * imgW ∧
    (fitWithin availW availH imgW imgH).1 ≤ availW ∧
    (fitWithin availW availH imgW imgH).2 ≤ availH ∧
    (fitWithin availW availH imgW imgH).1 ≤ imgW ∧
    (fitWithin availW availH imgW imgH).2 ≤ imgH ∧
    (imgW ≤ availW → imgH ≤ availH →
      fitWithin availW availH imgW imgH = (imgW, imgH)) := by
  unfold fitWithin
  by_cases h : imgW > availW ∨ imgH > availH
  · rw [if_pos h]
    have hs1 : min (availW / imgW) (availH / imgH) ≤ availW / imgW :=
      min_le_left _ _
    have hs2 : min (availW / imgW) (availH / imgH) ≤ availH / imgH :=
      min_le_right _ _
    have hsle1 : imgW * min (availW / imgW) (availH / imgH) ≤ availW := by
      calc imgW * min (availW / imgW) (availH / imgH)
          ≤ imgW * (availW / imgW) := by
            exact mul_le_mul_of_nonneg_left hs1 hW.le
        _ = availW := by field_simp
    have hsle2 : imgH * min (availW / imgW) (availH / imgH) ≤ availH := by
      calc imgH * min (availW / imgW) (availH / imgH)
          ≤ imgH * (availH / imgH) := by
            exact mul_le_mul_of_nonneg_left hs2 hH.le
        _ = availH := by field_simp
    have hmin1 : min (availW / imgW) (availH / imgH) ≤ 1 := by
      rcases h with h | h
      · exact hs1.trans (by rw [div_le_one hW]; exact h.le)
      · exact hs2.trans (by rw [div_le_one hH]; exact h.le)
    refine ⟨by ring, hsle1, hsle2, ?_, ?_, ?_⟩
    · calc imgW * min (availW / imgW) (availH / imgH) ≤ imgW * 1 :=
        mul_le_mul_of_nonneg_left hmin1 hW.le
      _ = imgW := mul_one _
    · calc imgH * min (availW / imgW) (availH / imgH) ≤ imgH * 1 :=
        mul_le_mul_of_nonneg_left hmin1 hH.le
      _ = imgH := mul_one _
    · intro h1 h2
      exfalso
      rcases h with h | h
      · exact absurd h1 (not_le.mpr h)
      · exact absurd h2 (not_le.mpr h)
  · rw [if_neg h]
    push_neg at h
    exact ⟨by ring, h.1, h.2, le_refl _, le_refl _, fun _ _ => rfl⟩

/-- **C7 counterexample.** The claim asserts that the export page-layout
computation centers the image vertically in the remaining content area, and
its cited sources include `exportAsPDF` (single-chart document export).  For
an A4-landscape page (297 × 210 mm) and a 600 × 300 bitmap without subtitle,
`exportAsPDF` places the image at the fixed `y = 35` while vertical
centering in the content area between the 30 mm top and bottom margins would
require `y = 30 + ((210 - 60) - finalH) / 2 = 40.75`. -/
theorem singleChartLayout_not_vertically_centered :
    (singleChartLayout 297 210 600 300 false).y ≠
      30 + ((210 - 60) - (singleChartLayout 297 210 600 300 false).finalH) / 2 := by
  have h : singleChartLayout 297 210 600 300 false =
      { finalW := 257, finalH := 257 / 2, x := 20, y := 35 } := by
    unfold singleChartLayout fitWithin
    norm_num
  rw [h]
  norm_num

/-- **C7 (amended).** For every bitmap with positive dimensions (on a page
large enough for the fixed margins), both export layouts produce final
dimensions that preserve the aspect ratio, fit within the available content
area (page minus the fixed margins), and never exceed the native dimensions
(identity if the bitmap already fits), and both center the image
horizontally in the page; the multi-chart layout also centers it vertically
in the remaining content area, while the single-chart layout places it at
the fixed vertical offset 35 (45 with a subtitle). -/
theorem exportLayout_fit_and_center (pdfW pdfH imgW imgH : ℚ)
    (hasSubtitle : Bool)
    (hW : 0 < imgW) (hH : 0 < imgH) (hpW : 60 < pdfW) (hpH : 60 < pdfH) :
    ((multiChartLayout pdfW pdfH imgW imgH).finalW * imgH =
        (multiChartLayout pdfW pdfH imgW imgH).finalH * imgW ∧
      (multiChartLayout pdfW pdfH imgW imgH).finalW ≤ pdfW - 60 ∧
      (multiChartLayout pdfW pdfH imgW imgH).finalH ≤ pdfH - 45 ∧
      (multiChartLayout pdfW pdfH imgW imgH).finalW ≤ imgW ∧
      (multiChartLayout pdfW pdfH imgW imgH).finalH ≤ imgH ∧
      (imgW ≤ pdfW - 60 → imgH ≤ pdfH - 45 →
        (multiChartLayout pdfW pdfH imgW imgH).finalW = imgW ∧
        (multiChartLayout pdfW pdfH imgW imgH).finalH = imgH) ∧
      pdfW - ((multiChartLayout pdfW pdfH imgW imgH).x +
          (multiChartLayout pdfW pdfH imgW imgH).finalW) =
        (multiChartLayout pdfW pdfH imgW imgH).x ∧
      (multiChartLayout pdfW pdfH imgW imgH).y - 25 =
        (pdfH - 20) - ((multiChartLayout pdfW pdfH imgW imgH).y +
          (multiChartLayout pdfW pdfH imgW imgH).finalH)) ∧
    ((singleChartLayout pdfW pdfH imgW imgH hasSubtitle).finalW * imgH =
        (singleChartLayout pdfW pdfH imgW imgH hasSubtitle).finalH * imgW ∧
      (singleChartLayout pdfW pdfH imgW imgH hasSubtitle).finalW ≤ pdfW - 40 ∧
      (singleChartLayout pdfW pdfH imgW imgH hasSubtitle).finalH ≤ pdfH - 60 ∧
      (singleChartLayout pdfW pdfH imgW imgH hasSubtitle).finalW ≤ imgW ∧
      (singleChartLayout pdfW pdfH imgW imgH hasSubtitle).finalH ≤ imgH ∧
      (imgW ≤ pdfW - 40 → imgH ≤ pdfH - 60 →
        (singleChartLayout pdfW pdfH imgW imgH hasSubtitle).finalW = imgW ∧
        (singleChartLayout pdfW pdfH imgW imgH hasSubtitle).finalH = imgH) ∧
      pdfW - ((singleChartLayout pdfW pdfH imgW imgH hasSubtitle).x +
          (singleChartLayout pdfW pdfH imgW imgH hasSubtitle).finalW) =
        (singleChartLayout pdfW pdfH imgW imgH hasSubtitle).x ∧
      (singleChartLayout pdfW pdfH imgW imgH hasSubtitle).y =
        (if hasSubtitle then (45 : ℚ) else 35)) := by
  have hm := fitWithin_spec (pdfW - 30 * 2) (pdfH - 25 - 20) imgW imgH hW hH
  have hs := fitWithin_spec (pdfW - 40) (pdfH - 60) imgW imgH hW hH
  obtain ⟨hm1, hm2, hm3, hm4, hm5, hm6⟩ := hm
  obtain ⟨hs1, hs2, hs3, hs4, hs5, hs6⟩ := hs
  have em1 : (multiChartLayout pdfW pdfH imgW imgH).finalW =
    (fitWithin (pdfW - 30 * 2) (pdfH - 25 - 20) imgW imgH).1 := rfl
  have em2 : (multiChartLayout pdfW pdfH imgW imgH).finalH =
    (fitWithin (pdfW - 30 * 2) (pdfH - 25 - 20) imgW imgH).2 := rfl
  have em3 : (multiChartLayout pdfW pdfH imgW imgH).x =
    (pdfW - (fitWithin (pdfW - 30 * 2) (pdfH - 25 - 20) imgW imgH).1) / 2 := rfl
  have em4 : (multiChartLayout pdfW pdfH imgW imgH).y =
    25 + ((pdfH - 25 - 20) -
      (fitWithin (pdfW - 30 * 2) (pdfH - 25 - 20) imgW imgH).2) / 2 := rfl
  have es1 : (singleChartLayout pdfW pdfH imgW imgH hasSubtitle).finalW =
    (fitWithin (pdfW - 40) (pdfH - 60) imgW imgH).1 := rfl
  have es2 : (singleChartLayout pdfW pdfH imgW imgH hasSubtitle).finalH =
    (fitWithin (pdfW - 40) (pdfH - 60) imgW imgH).2 := rfl
  have es3 : (singleChartLayout pdfW pdfH imgW imgH hasSubtitle).x =
    (pdfW - (fitWithin (pdfW - 40) (pdfH - 60) imgW imgH).1) / 2 := rfl
  have es4 : (singleChartLayout pdfW pdfH imgW imgH hasSubtitle).y =
    (if hasSubtitle then (45 : ℚ) else 35) := rfl
  rw [em1, em2, em3, em4, es1, es2, es3, es4]
  constructor
  · refine ⟨hm1, by linarith, by linarith, hm4, hm5, ?_, by ring, by ring⟩
    intro h1 h2
    rw [hm6 (by linarith) (by linarith)]
    exact ⟨rfl, rfl⟩
  · refine ⟨hs1, hs2, hs3, hs4, hs5, ?_, by ring, rfl⟩
    intro h1 h2
    rw [hs6 h1 h2]
    exact ⟨rfl, rfl⟩

/-- **C7 witness.** A 100 × 100 bitmap on an A4-landscape 297 × 210 page. -/
theorem exportLayout_fit_and_center_witness :
    (multiChartLayout 297 210 100 100).finalW ≤ 297 - 60 ∧
    (multiChartLayout 297 210 100 100).finalH ≤ 100 ∧
    (singleChartLayout 297 210 100 100 false).finalW = 100 := by
  have h := exportLayout_fit_and_center 297 210 100 100 false
    (by norm_num) (by norm_num) (by norm_num) (by norm_num)
  refine ⟨h.1.2.1, h.1.2.2.2.2.1, ?_⟩
  exact (h.2.2.2.2.2.2.1 (by norm_num) (by norm_num)).1

/-- **C8.** An export whose capture produces no content fails with the
export error surfaced to the caller (`exportChart` returns the error rather
than diverging, and `handleExport` converts it into a destructive toast
instead of a crash), and the transaction list and session are unchanged by
the failed export (the busy flag is cleared); a missing region likewise
only produces a failure toast and leaves the session untouched. -/
theorem export_empty_capture_is_safe (st : Session) :
    exportChart none = Except.error "Failed to export chart" ∧
    (handleExport st (some none)).1.transactions = st.transactions ∧
    (handleExport st (some none)).1.isExporting = false ∧
    (handleExport st (some none)).2.destructive = true ∧
    (handleExport st none).1 = st :=
  ⟨rfl, rfl, rfl, rfl, rfl⟩

theorem matchesFilters_iff (searchTerm filterType filterCategory
    filterCurrency : String) (t : Transaction) :
    matchesFilters searchTerm filterType filterCategory filterCurrency t =
      true ↔
    (((lowerStr searchTerm).toList <:+: (lowerStr t.description).toList ∨
      (lowerStr searchTerm).toList <:+: (lowerStr t.category).toList) ∧
     (filterType = "all" ∨ typeStr t.type = filterType) ∧
     (filterCategory = "all" ∨ t.category = filterCategory) ∧
     (filterCurrency = "all" ∨ currOf t = filterCurrency)) := by
  unfold matchesFilters containsSub
  simp [Bool.and_eq_true, Bool.or_eq_true, decide_eq_true_eq, beq_iff_eq,
    and_assoc]

theorem compareTx_date_le (a b : Transaction) :
    compareTx "date" a b ≤ 0 ↔ dateNum b.date ≤ dateNum a.date := by
  unfold compareTx
  rw [if_pos rfl, sub_nonpos, Nat.cast_le]

theorem compareTx_amount_le (a b : Transaction) :
    compareTx "amount" a b ≤ 0 ↔ b.amount ≤ a.amount := by
  unfold compareTx
  rw [if_neg (by decide), if_pos rfl, sub_nonpos]

theorem compareTx_category_le (a b : Transaction) :
    compareTx "category" a b ≤ 0 ↔ a.category ≤ b.category := by
  unfold compareTx
  rw [if_neg (by decide), if_neg (by decide), if_pos rfl]
  by_cases h1 : a.category < b.category
  · simp only [if_pos h1]
    constructor
    · intro _; exact le_of_lt h1
    · intro _; norm_num
  · rw [if_neg h1]
    by_cases h2 : a.category = b.category
    · simp only [if_pos h2]
      constructor
      · intro _; exact le_of_eq h2
      · intro _; exact le_refl 0
    · rw [if_neg h2]
      constructor
      · intro h; norm_num at h
      · intro h
        exact absurd (lt_of_le_of_ne h h2) h1

/-- **C4.** The list view retains exactly the transactions satisfying the
conjunction of the search and the optional type/category/currency filters
(a permutation of the filtered sequence, hence same records with their
multiplicities), and orders them by the chosen sort key: date descending,
amount descending, or category ascending — in particular sorting by
category yields a lexicographically non-decreasing category sequence. -/
theorem filteredTransactions_correct (ts : List Transaction)
    (search ftype fcat fcurr sortBy : String) :
    (filteredTransactions ts search ftype fcat fcurr sortBy).Perm
      (ts.filter (matchesFilters search ftype fcat fcurr)) ∧
    (∀ t : Transaction,
      t ∈ filteredTransactions ts search ftype fcat fcurr sortBy ↔
      (t ∈ ts ∧
        ((lowerStr search).toList <:+: (lowerStr t.description).toList ∨
         (lowerStr search).toList <:+: (lowerStr t.category).toList) ∧
        (ftype = "all" ∨ typeStr t.type = ftype) ∧
        (fcat = "all" ∨ t.category = fcat) ∧
        (fcurr = "all" ∨ currOf t = fcurr))) ∧
    (sortBy = "date" →
      (filteredTransactions ts search ftype fcat fcurr sortBy).Pairwise
        (fun a b => dateNum b.date ≤ dateNum a.date)) ∧
    (sortBy = "amount" →
      (filteredTransactions ts search ftype fcat fcurr sortBy).Pairwise
        (fun a b => b.amount ≤ a.amount)) ∧
    (sortBy = "category" →
      (filteredTransactions ts search ftype fcat fcurr sortBy).Pairwise
        (fun a b => a.category ≤ b.category)) := by
  refine ⟨List.mergeSort_perm _ _, ?_, ?_, ?_, ?_⟩
  · intro t
    unfold filteredTransactions
    rw [List.mem_mergeSort, List.mem_filter, matchesFilters_iff]
  · rintro rfl
    have htrans : ∀ a b c : Transaction,
        (fun a b => decide (compareTx "date" a b ≤ 0)) a b = true →
        (fun a b => decide (compareTx "date" a b ≤ 0)) b c = true →
        (fun a b => decide (compareTx "date" a b ≤ 0)) a c = true := by
      intro a b c hab hbc
      simp only [decide_eq_true_eq, compareTx_date_le] at hab hbc ⊢
      exact hbc.trans hab
    have htotal : ∀ a b : Transaction,
        ((fun a b => decide (compareTx "date" a b ≤ 0)) a b ||
         (fun a b => decide (compareTx "date" a b ≤ 0)) b a) = true := by
      intro a b
      simp only [Bool.or_eq_true, decide_eq_true_eq, compareTx_date_le]
      exact le_total _ _
    have h := List.sorted_mergeSort htrans htotal
      (ts.filter (matchesFilters search ftype fcat fcurr))
    exact h.imp (fun hab => (compareTx_date_le _ _).mp
      (by simpa using hab))
  · rintro rfl
    have htrans : ∀ a b c : Transaction,
        (fun a b => decide (compareTx "amount" a b ≤ 0)) a b = true →
        (fun a b => decide (compareTx "amount" a b ≤ 0)) b c = true →
        (fun a b => decide (compareTx "amount" a b ≤ 0)) a c = true := by
      intro a b c hab hbc
      simp only [decide_eq_true_eq, compareTx_amount_le] at hab hbc ⊢
      exact hbc.trans hab
    have htotal : ∀ a b : Transaction,
        ((fun a b => decide (compareTx "amount" a b ≤ 0)) a b ||
         (fun a b => decide (compareTx "amount" a b ≤ 0)) b a) = true := by
      intro a b
      simp only [Bool.or_eq_true, decide_eq_true_eq, compareTx_amount_le]
      exact le_total _ _
    have h := List.sorted_mergeSort htrans htotal
      (ts.filter (matchesFilters search ftype fcat fcurr))
    exact h.imp (fun hab => (compareTx_amount_le _ _).mp
      (by simpa using hab))
  · rintro rfl
    have htrans : ∀ a b c : Transaction,
        (fun a b => decide (compareTx "category" a b ≤ 0)) a b = true →
        (fun a b => decide (compareTx "category" a b ≤ 0)) b c = true →
        (fun a b => decide (compareTx "category" a b ≤ 0)) a c = true := by
      intro a b c hab hbc
      simp only [decide_eq_true_eq, compareTx_category_le] at hab hbc ⊢
      exact hab.trans hbc
    have htotal : ∀ a b : Transaction,
        ((fun a b => decide (compareTx "category" a b ≤ 0)) a b ||
         (fun a b => decide (compareTx "category" a b ≤ 0)) b a) = true := by
      intro a b
      simp only [Bool.or_eq_true, decide_eq_true_eq, compareTx_category_le]
      exact le_total _ _
    have h := List.sorted_mergeSort htrans htotal
      (ts.filter (matchesFilters search ftype fcat fcurr))
    exact h.imp (fun hab => (compareTx_category_le _ _).mp
      (by simpa using hab))

/-- **C4 witness.** On the concrete store `[txA, txB, txC]` with an empty
search and no filters, sorting by category yields a non-decreasing category
sequence, and `txB` is retained. -/
theorem filteredTransactions_correct_witness :
    (filteredTransactions [txA, txB, txC] "" "all" "all" "all"
      "category").Pairwise (fun a b => a.category ≤ b.category) ∧
    txB ∈ filteredTransactions [txA, txB, txC] "" "all" "all" "all"
      "category" := by
  have h := filteredTransactions_correct [txA, txB, txC] "" "all" "all" "all"
    "category"
  refine ⟨h.2.2.2.2 rfl, (h.2.1 txB).mpr ?_⟩
  refine ⟨by simp, Or.inl ?_, Or.inl rfl, Or.inl rfl, Or.inl rfl⟩
  have he : (lowerStr "").toList = ([] : List Char) := rfl
  rw [he]
  exact List.nil_infix

/-! ### Decimal rendering lemmas -/

theorem natDigitsAux_fuel (n : Nat) : ∀ fuel₁ fuel₂ acc, n < fuel₁ → n < fuel₂ →
    natDigitsAux fuel₁ n acc = natDigitsAux fuel₂ n acc := by
  induction n using Nat.strong_induction_on with
  | _ n ih =>
    intro fuel₁ fuel₂ acc h1 h2
    obtain ⟨f1, rfl⟩ : ∃ f, fuel₁ = f + 1 := ⟨fuel₁ - 1, by omega⟩
    obtain ⟨f2, rfl⟩ : ∃ f, fuel₂ = f + 1 := ⟨fuel₂ - 1, by omega⟩
    by_cases h10 : n < 10
    · simp [natDigitsAux, h10]
    · simp only [natDigitsAux, if_neg h10]
      exact ih (n / 10) (by omega) f1 f2 _ (by omega) (by omega)

theorem natDigitsAux_small (n : Nat) (acc : List Char) (h : n < 10) :
    natDigitsAux (n + 1) n acc = digitChar n :: acc := by
  simp [natDigitsAux, h]

theorem natDigitsAux_step (n : Nat) (acc : List Char) (h : ¬ n < 10) :
    natDigitsAux (n + 1) n acc =
      natDigitsAux (n / 10 + 1) (n / 10) (digitChar (n % 10) :: acc) := by
  have h1 : natDigitsAux (n + 1) n acc =
      natDigitsAux n (n / 10) (digitChar (n % 10) :: acc) := by
    simp [natDigitsAux, h]
  rw [h1]
  exact natDigitsAux_fuel (n / 10) n (n / 10 + 1) _ (by omega) (by omega)

theorem natDigitsAux_two (n : Nat) (acc : List Char) (h1 : 10 ≤ n)
    (h2 : n ≤ 99) :
    natDigitsAux (n + 1) n acc =
      digitChar (n / 10) :: digitChar (n % 10) :: acc := by
  rw [natDigitsAux_step n acc (by omega),
    natDigitsAux_small (n / 10) _ (by omega)]

theorem natDigitsAux_three (n : Nat) (acc : List Char) (h1 : 100 ≤ n)
    (h2 : n ≤ 999) :
    natDigitsAux (n + 1) n acc =
      digitChar (n / 100) :: digitChar (n / 10 % 10) ::
        digitChar (n % 10) :: acc := by
  rw [natDigitsAux_step n acc (by omega),
    natDigitsAux_two (n / 10) _ (by omega) (by omega)]
  have e1 : n / 10 / 10 = n / 100 := by omega
  rw [e1]

theorem natDigitsAux_four (n : Nat) (acc : List Char) (h1 : 1000 ≤ n)
    (h2 : n ≤ 9999) :
    natDigitsAux (n + 1) n acc =
      digitChar (n / 1000) :: digitChar (n / 100 % 10) ::
        digitChar (n / 10 % 10) :: digitChar (n % 10) :: acc := by
  rw [natDigitsAux_step n acc (by omega),
    natDigitsAux_three (n / 10) _ (by omega) (by omega)]
  have e1 : n / 10 / 100 = n / 1000 := by omega
  have e2 : n / 10 / 10 % 10 = n / 100 % 10 := by omega
  rw [e1, e2]

theorem digitChar_lt : ∀ a < 10, ∀ b < 10, a < b → digitChar a < digitChar b := by
  decide

theorem pad2_toList (n : Nat) (h : n ≤ 99) :
    (pad2 n).toList = [digitChar (n / 10), digitChar (n % 10)] := by
  unfold pad2
  by_cases h10 : n < 10
  · rw [if_pos h10]
    have ha : ("0" ++ natStr n).toList = '0' :: (natStr n).toList := by
      show ("0" ++ natStr n).data = '0' :: (natStr n).data
      rw [String.data_append]
      rfl
    have hb : (natStr n).toList = [digitChar n] := natDigitsAux_small n [] h10
    have hc : digitChar (n / 10) = '0' := by
      have hz : n / 10 = 0 := by omega
      rw [hz]
      rfl
    have hd : n % 10 = n := by omega
    rw [ha, hb, hc, hd]
  · rw [if_neg h10]
    show natDigitsAux (n + 1) n [] = _
    exact natDigitsAux_two n [] (by omega) h

/-! ### Lexicographic comparison of the generated keys -/

theorem lex_append_of_lex : ∀ (l₁ l₂ m₁ m₂ : List Char),
    l₁.length = l₂.length → List.Lex (· < ·) l₁ l₂ →
    List.Lex (· < ·) (l₁ ++ m₁) (l₂ ++ m₂) := by
  intro l₁
  induction l₁ with
  | nil =>
    intro l₂ m₁ m₂ hlen h
    cases l₂ with
    | nil => cases h
    | cons b bs => simp at hlen
  | cons a as ih =>
    intro l₂ m₁ m₂ hlen h
    cases l₂ with
    | nil => simp at hlen
    | cons b bs =>
      cases h with
      | rel hr => exact List.Lex.rel hr
      | cons hl => exact List.Lex.cons (ih bs m₁ m₂ (by simpa using hlen) hl)

theorem lex_append_same (l m₁ m₂ : List Char)
    (h : List.Lex (· < ·) m₁ m₂) :
    List.Lex (· < ·) (l ++ m₁) (l ++ m₂) := by
  induction l with
  | nil => simpa using h
  | cons a as ih => exact List.Lex.cons ih

theorem lex_natDigits_four (a b : Nat) (ha : 1000 ≤ a) (ha2 : a ≤ 9999)
    (hb : 1000 ≤ b) (hb2 : b ≤ 9999) (hab : a < b) :
    List.Lex (· < ·) (natDigitsAux (a + 1) a []) (natDigitsAux (b + 1) b []) := by
  rw [natDigitsAux_four a [] ha ha2, natDigitsAux_four b [] hb hb2]
  have hd : a / 1000 < b / 1000 ∨ (a / 1000 = b / 1000 ∧
      (a / 100 % 10 < b / 100 % 10 ∨ (a / 100 % 10 = b / 100 % 10 ∧
        (a / 10 % 10 < b / 10 % 10 ∨ (a / 10 % 10 = b / 10 % 10 ∧
          a % 10 < b % 10))))) := by omega
  rcases hd with h | ⟨e1, h⟩
  · exact List.Lex.rel (digitChar_lt _ (by omega) _ (by omega) h)
  · rw [e1]
    apply List.Lex.cons
    rcases h with h | ⟨e2, h⟩
    · exact List.Lex.rel (digitChar_lt _ (by omega) _ (by omega) h)
    · rw [e2]
      apply List.Lex.cons
      rcases h with h | ⟨e3, h⟩
      · exact List.Lex.rel (digitChar_lt _ (by omega) _ (by omega) h)
      · rw [e3]
        apply List.Lex.cons
        exact List.Lex.rel (digitChar_lt _ (by omega) _ (by omega) h)

theorem lex_pad2 (a b : Nat) (ha : a ≤ 99) (hb : b ≤ 99) (hab : a < b) :
    List.Lex (· < ·) (pad2 a).toList (pad2 b).toList := by
  rw [pad2_toList a ha, pad2_toList b hb]
  have hd : a / 10 < b / 10 ∨ (a / 10 = b / 10 ∧ a % 10 < b % 10) := by omega
  rcases hd with h | ⟨e1, h⟩
  · exact List.Lex.rel (digitChar_lt _ (by omega) _ (by omega) h)
  · rw [e1]
    apply List.Lex.cons
    exact List.Lex.rel (digitChar_lt _ (by omega) _ (by omega) h)

/-! ### Calendar monotonicity -/

theorem daysBeforeMonth_mono :
    (∀ m2 < 13, ∀ m1 < m2, daysBeforeMonth true m1 + daysInMonth true m1 ≤
      daysBeforeMonth true m2) ∧
    (∀ m2 < 13, ∀ m1 < m2, daysBeforeMonth false m1 + daysInMonth false m1 ≤
      daysBeforeMonth false m2) := by
  decide

theorem daysInYear_bound :
    (∀ m < 13, daysBeforeMonth true m + daysInMonth true m ≤ 366) ∧
    (∀ m < 13, daysBeforeMonth false m + daysInMonth false m ≤ 366) := by
  decide

theorem dayOfYear_le_of_chron (d1 d2 : YMD) (hv1 : ValidDate d1)
    (hv2 : ValidDate d2) (hy : d1.y = d2.y)
    (hmd : d1.m < d2.m ∨ (d1.m = d2.m ∧ d1.d ≤ d2.d)) :
    dayOfYear d1 ≤ dayOfYear d2 := by
  obtain ⟨hm1a, hm1b, hd1a, hd1b⟩ := hv1
  obtain ⟨hm2a, hm2b, hd2a, hd2b⟩ := hv2
  unfold dayOfYear
  rw [hy]
  rcases hmd with hlt | ⟨heq, hle⟩
  · have hstep : daysBeforeMonth (isLeap d2.y) d1.m +
        daysInMonth (isLeap d2.y) d1.m ≤ daysBeforeMonth (isLeap d2.y) d2.m := by
      cases hL : isLeap d2.y
      · exact daysBeforeMonth_mono.2 d2.m (by omega) d1.m hlt
      · exact daysBeforeMonth_mono.1 d2.m (by omega) d1.m hlt
    rw [hy] at hd1b
    omega
  · rw [heq]
    omega

theorem dayOfYear_bound (d : YMD) (hv : ValidDate d) : dayOfYear d ≤ 366 := by
  obtain ⟨hm1, hm2, hd1, hd2⟩ := hv
  unfold dayOfYear
  have hb : daysBeforeMonth (isLeap d.y) d.m + daysInMonth (isLeap d.y) d.m ≤
      366 := by
    cases hL : isLeap d.y
    · exact daysInYear_bound.2 d.m (by omega)
    · exact daysInYear_bound.1 d.m (by omega)
  omega

theorem weekNum_mono (d1 d2 : YMD) (hy : d1.y = d2.y)
    (hdoy : dayOfYear d1 ≤ dayOfYear d2) : weekNum d1 ≤ weekNum d2 := by
  unfold weekNum
  rw [hy]
  apply Nat.div_le_div_right
  omega

theorem weekNum_le (d : YMD) (hv : ValidDate d) : weekNum d ≤ 54 := by
  have h1 := dayOfYear_bound d hv
  have h2 : jsGetDay ⟨d.y, 1, 1⟩ < 7 := Nat.mod_lt _ (by omega)
  unfold weekNum
  omega

/-! ### Key-string monotonicity -/

theorem getWeekYear_toList (d : YMD) :
    (getWeekYear d).toList =
      natDigitsAux (d.y + 1) d.y [] ++
        ('-' :: 'W' :: (pad2 (weekNum d)).toList) := by
  show (natStr d.y ++ "-W" ++ pad2 (weekNum d)).data = _
  rw [String.data_append, String.data_append, List.append_assoc]
  rfl

theorem getMonthYear_toList (d : YMD) :
    (getMonthYear d).toList =
      natDigitsAux (d.y + 1) d.y [] ++ ('-' :: (pad2 d.m).toList) := by
  show (natStr d.y ++ "-" ++ pad2 d.m).data = _
  rw [String.data_append, String.data_append, List.append_assoc]
  rfl

theorem natDigitsAux_four_length (y : Nat) (h1 : 1000 ≤ y) (h2 : y ≤ 9999) :
    (natDigitsAux (y + 1) y []).length = 4 := by
  rw [natDigitsAux_four y [] h1 h2]
  rfl

theorem string_le_of_toList_lex {s t : String}
    (h : List.Lex (· < ·) s.toList t.toList) : s ≤ t := by
  apply le_of_lt
  rw [String.lt_iff_toList_lt]
  exact h

theorem getWeekYear_mono (d1 d2 : YMD) (hv1 : ValidDate d1)
    (hv2 : ValidDate d2) (hy1 : 1000 ≤ d1.y) (hy2 : d1.y ≤ 9999)
    (hy3 : 1000 ≤ d2.y) (hy4 : d2.y ≤ 9999) (hc : chronLE d1 d2) :
    getWeekYear d1 ≤ getWeekYear d2 := by
  rcases hc with hlt | ⟨heq, hmd⟩
  · apply string_le_of_toList_lex
    rw [getWeekYear_toList, getWeekYear_toList]
    exact lex_append_of_lex _ _ _ _
      (by rw [natDigitsAux_four_length d1.y hy1 hy2,
        natDigitsAux_four_length d2.y hy3 hy4])
      (lex_natDigits_four d1.y d2.y hy1 hy2 hy3 hy4 hlt)
  · have hww : weekNum d1 ≤ weekNum d2 :=
      weekNum_mono d1 d2 heq (dayOfYear_le_of_chron d1 d2 hv1 hv2 heq hmd)
    rcases Nat.lt_or_ge (weekNum d1) (weekNum d2) with hwlt | hwge
    · apply string_le_of_toList_lex
      rw [getWeekYear_toList, getWeekYear_toList, heq]
      apply lex_append_same
      apply List.Lex.cons
      apply List.Lex.cons
      exact lex_pad2 _ _ (by have := weekNum_le d1 hv1; omega)
        (by have := weekNum_le d2 hv2; omega) hwlt
    · have hweq : weekNum d1 = weekNum d2 := by omega
      apply le_of_eq
      unfold getWeekYear natStr
      rw [heq, hweq]

theorem getMonthYear_mono (d1 d2 : YMD) (hv1 : ValidDate d1)
    (hv2 : ValidDate d2) (hy1 : 1000 ≤ d1.y) (hy2 : d1.y ≤ 9999)
    (hy3 : 1000 ≤ d2.y) (hy4 : d2.y ≤ 9999) (hc : chronLE d1 d2) :
    getMonthYear d1 ≤ getMonthYear d2 := by
  rcases hc with hlt | ⟨heq, hmd⟩
  · apply string_le_of_toList_lex
    rw [getMonthYear_toList, getMonthYear_toList]
    exact lex_append_of_lex _ _ _ _
      (by rw [natDigitsAux_four_length d1.y hy1 hy2,
        natDigitsAux_four_length d2.y hy3 hy4])
      (lex_natDigits_four d1.y d2.y hy1 hy2 hy3 hy4 hlt)
  · obtain ⟨hm1a, hm1b, -, -⟩ := hv1
    obtain ⟨hm2a, hm2b, -, -⟩ := hv2
    rcases hmd with hmlt | ⟨hmeq, -⟩
    · apply string_le_of_toList_lex
      rw [getMonthYear_toList, getMonthYear_toList, heq]
      apply lex_append_same
      apply List.Lex.cons
      exact lex_pad2 _ _ (by omega) (by omega) hmlt
    · apply le_of_eq
      unfold getMonthYear natStr
      rw [heq, hmeq]

theorem bucketKey_mono (p : Period) (d1 d2 : YMD) (hv1 : ValidDate d1)
    (hv2 : ValidDate d2) (hy1 : 1000 ≤ d1.y) (hy2 : d1.y ≤ 9999)
    (hy3 : 1000 ≤ d2.y) (hy4 : d2.y ≤ 9999) (hc : chronLE d1 d2) :
    bucketKey p d1 ≤ bucketKey p d2 := by
  cases p
  · exact getWeekYear_mono d1 d2 hv1 hv2 hy1 hy2 hy3 hy4 hc
  · exact getMonthYear_mono d1 d2 hv1 hv2 hy1 hy2 hy3 hy4 hc

theorem lookupQ_nil (k : String) : lookupQ [] k = none := rfl

theorem lookupQ_cons (k0 : String) (v0 : ℚ) (rest : List (String × ℚ))
    (k : String) :
    lookupQ ((k0, v0) :: rest) k = if k0 = k then some v0 else lookupQ rest k := by
  by_cases h : k0 = k <;> simp [lookupQ, List.find?_cons, h]

theorem lookupQ_addToBucket (m : List (String × ℚ)) (k' : String) (v : ℚ)
    (k : String) :
    lookupQ (addToBucket m k' v) k =
      if k' = k then some (lookupD m k + v) else lookupQ m k := by
  induction m with
  | nil =>
    by_cases h : k' = k
    · rw [addToBucket_nil, lookupQ_cons, if_pos h, if_pos h]
      simp [lookupD, lookupQ_nil]
    · rw [addToBucket_nil, lookupQ_cons, if_neg h, if_neg h, lookupQ_nil]
  | cons q rest ih =>
    obtain ⟨k0, v0⟩ := q
    by_cases h0 : k0 = k'
    · rw [addToBucket_cons, if_pos h0]
      by_cases h : k0 = k
      · have hk : k' = k := h0 ▸ h
        rw [lookupQ_cons, if_pos h, if_pos hk]
        simp [lookupD, lookupQ_cons, h]
      · have hk : ¬ k' = k := fun hh => h (h0.trans hh)
        rw [lookupQ_cons, if_neg h, if_neg hk, lookupQ_cons, if_neg h]
    · rw [addToBucket_cons, if_neg h0]
      by_cases h : k0 = k
      · have hk : ¬ k' = k := fun hh => h0 (h.trans hh.symm)
        rw [lookupQ_cons, if_pos h, if_neg hk, lookupQ_cons, if_pos h]
      · rw [lookupQ_cons, if_neg h, ih, lookupQ_cons, if_neg h]
        by_cases hk : k' = k
        · rw [if_pos hk, if_pos hk]
          simp [lookupD, lookupQ_cons, if_neg h]
        · rw [if_neg hk, if_neg hk]

theorem lookupD_addToBucket (m : List (String × ℚ)) (k' : String) (v : ℚ)
    (k : String) :
    lookupD (addToBucket m k' v) k =
      if k' = k then lookupD m k + v else lookupD m k := by
  unfold lookupD
  rw [lookupQ_addToBucket]
  by_cases h : k' = k <;> simp [h, lookupD]

theorem keysOf_addToBucket (m : List (String × ℚ)) (k' : String) (v : ℚ) :
    keysOf (addToBucket m k' v) =
      if k' ∈ keysOf m then keysOf m else keysOf m ++ [k'] := by
  induction m with
  | nil => simp [addToBucket_nil, keysOf]
  | cons q rest ih =>
    obtain ⟨k0, v0⟩ := q
    by_cases h0 : k0 = k'
    · rw [addToBucket_cons, if_pos h0]
      have hmem : k' ∈ keysOf ((k0, v0) :: rest) := by
        simp [keysOf, h0.symm]
      rw [if_pos hmem]
      simp [keysOf]
    · rw [addToBucket_cons, if_neg h0]
      have hk : keysOf ((k0, v0) :: addToBucket rest k' v) =
          k0 :: keysOf (addToBucket rest k' v) := rfl
      rw [hk, ih]
      by_cases hmem : k' ∈ keysOf rest
      · have hmem' : k' ∈ keysOf ((k0, v0) :: rest) := by
          rw [show keysOf ((k0, v0) :: rest) = k0 :: keysOf rest from rfl]
          exact List.mem_cons_of_mem _ hmem
        rw [if_pos hmem, if_pos hmem']
        rfl
      · have hnm : k' ∉ keysOf ((k0, v0) :: rest) := by
          simp only [keysOf, List.map_cons, List.mem_cons]
          push_neg
          exact ⟨fun hh => h0 hh.symm, by simpa [keysOf] using hmem⟩
        rw [if_neg hmem, if_neg hnm]
        rfl

theorem keysOf_addToBucket_nodup (m : List (String × ℚ)) (k' : String) (v : ℚ)
    (h : (keysOf m).Nodup) : (keysOf (addToBucket m k' v)).Nodup := by
  rw [keysOf_addToBucket]
  by_cases hmem : k' ∈ keysOf m
  · rw [if_pos hmem]
    exact h
  · rw [if_neg hmem]
    rw [List.nodup_append]
    refine ⟨h, List.nodup_singleton _, ?_⟩
    intro x hx hx'
    rw [List.mem_singleton] at hx'
    exact hmem (hx' ▸ hx)

theorem lookupQ_eq_none_iff (m : List (String × ℚ)) (k : String) :
    lookupQ m k = none ↔ k ∉ keysOf m := by
  induction m with
  | nil => simp [lookupQ_nil, keysOf]
  | cons q rest ih =>
    obtain ⟨k0, v0⟩ := q
    rw [lookupQ_cons]
    by_cases h : k0 = k
    · simp [h, keysOf]
    · simp only [if_neg h, ih, keysOf, List.map_cons, List.mem_cons]
      constructor
      · rintro hk (hh | hh)
        · exact h hh.symm
        · exact hk hh
      · intro hk hh
        exact hk (Or.inr hh)

theorem mem_iff_lookupQ (m : List (String × ℚ)) (k : String) (v : ℚ)
    (h : (keysOf m).Nodup) : (k, v) ∈ m ↔ lookupQ m k = some v := by
  induction m with
  | nil => simp [lookupQ_nil]
  | cons q rest ih =>
    obtain ⟨k0, v0⟩ := q
    have hnd : (keysOf rest).Nodup := (List.nodup_cons.mp h).2
    have hhd : k0 ∉ keysOf rest := (List.nodup_cons.mp h).1
    rw [lookupQ_cons, List.mem_cons]
    by_cases hk : k0 = k
    · subst hk
      rw [if_pos rfl]
      constructor
      · rintro (hh | hh)
        · rw [(Prod.mk.injEq _ _ _ _).mp hh.symm |>.2]
        · exfalso
          exact hhd (by simpa [keysOf] using List.mem_map_of_mem Prod.fst hh)
      · intro hh
        left
        rw [Option.some_inj] at hh
        rw [hh]
    · rw [if_neg hk]
      rw [← ih hnd]
      constructor
      · rintro (hh | hh)
        · exfalso
          exact hk ((Prod.mk.injEq _ _ _ _).mp hh.symm).1
        · exact hh
      · exact Or.inr

theorem lookupQ_eq_some_iff (m : List (String × ℚ)) (k : String) (v : ℚ) :
    lookupQ m k = some v ↔ (k ∈ keysOf m ∧ v = lookupD m k) := by
  cases hq : lookupQ m k with
  | none =>
    have hk := (lookupQ_eq_none_iff m k).mp hq
    simp [hk]
  | some w =>
    have hk : k ∈ keysOf m := by
      by_contra hmem
      have hnone := (lookupQ_eq_none_iff m k).mpr hmem
      rw [hq] at hnone
      cases hnone
    simp [hk, lookupD, hq, eq_comm]

/-! ### Folding transactions into buckets -/

theorem lookupD_foldBuckets (p : Period) (l : List Transaction)
    (m : List (String × ℚ)) (k : String) :
    lookupD (l.foldl (fun m t => addToBucket m (bucketKey p t.date) t.amount) m)
        k =
      lookupD m k +
        ((l.filter (fun t => bucketKey p t.date == k)).map Transaction.amount).sum := by
  induction l generalizing m with
  | nil => simp
  | cons t rest ih =>
    rw [List.foldl_cons, ih, lookupD_addToBucket, List.filter_cons]
    by_cases h : bucketKey p t.date = k
    · rw [if_pos h]
      simp only [h, beq_self_eq_true, if_pos, List.map_cons, List.sum_cons]
      ring
    · rw [if_neg h]
      simp only [beq_iff_eq, h]
      rfl

theorem mem_keys_foldBuckets (p : Period) (l : List Transaction)
    (m : List (String × ℚ)) (k : String) :
    k ∈ keysOf (l.foldl (fun m t => addToBucket m (bucketKey p t.date) t.amount) m) ↔
      k ∈ keysOf m ∨ ∃ t ∈ l, bucketKey p t.date = k := by
  induction l generalizing m with
  | nil => simp
  | cons t rest ih =>
    rw [List.foldl_cons, ih]
    have haux : k ∈ keysOf (addToBucket m (bucketKey p t.date) t.amount) ↔
        k ∈ keysOf m ∨ k = bucketKey p t.date := by
      rw [keysOf_addToBucket]
      by_cases hmem : bucketKey p t.date ∈ keysOf m
      · rw [if_pos hmem]
        constructor
        · exact Or.inl
        · rintro (hh | hh)
          · exact hh
          · exact hh ▸ hmem
      · rw [if_neg hmem]
        simp
    rw [haux]
    constructor
    · rintro ((hh | hh) | ⟨u, hu, hku⟩)
      · exact Or.inl hh
      · exact Or.inr ⟨t, List.mem_cons_self _ _, hh.symm⟩
      · exact Or.inr ⟨u, List.mem_cons_of_mem _ hu, hku⟩
    · rintro (hh | ⟨u, hu, hku⟩)
      · exact Or.inl (Or.inl hh)
      · rcases List.mem_cons.mp hu with hu' | hu'
        · exact Or.inl (Or.inr (hu' ▸ hku.symm))
        · exact Or.inr ⟨u, hu', hku⟩

theorem keys_foldBuckets_nodup (p : Period) (l : List Transaction)
    (m : List (String × ℚ)) (h : (keysOf m).Nodup) :
    (keysOf (l.foldl (fun m t => addToBucket m (bucketKey p t.date) t.amount)
      m)).Nodup := by
  induction l generalizing m with
  | nil => exact h
  | cons t rest ih =>
    rw [List.foldl_cons]
    exact ih _ (keysOf_addToBucket_nodup _ _ _ h)

theorem sortByKey_perm (l : List (String × ℚ)) : (sortByKey l).Perm l :=
  List.mergeSort_perm l _

theorem sortByKey_sorted (l : List (String × ℚ)) :
    (sortByKey l).Pairwise (fun a b => a.1 ≤ b.1) := by
  have htrans : ∀ a b c : String × ℚ,
      (fun p q => decide (p.1 ≤ q.1)) a b = true →
      (fun p q => decide (p.1 ≤ q.1)) b c = true →
      (fun p q => decide (p.1 ≤ q.1)) a c = true := by
    intro a b c hab hbc
    simp only [decide_eq_true_eq] at hab hbc ⊢
    exact hab.trans hbc
  have htotal : ∀ a b : String × ℚ,
      ((fun p q => decide (p.1 ≤ q.1)) a b ||
       (fun p q => decide (p.1 ≤ q.1)) b a) = true := by
    intro a b
    simp only [Bool.or_eq_true, decide_eq_true_eq]
    exact le_total _ _
  have h := List.sorted_mergeSort htrans htotal l
  exact h.imp (fun hab => by simpa using hab)

/-- **C3.** The weekly/monthly trend assigns each `type = expense`
transaction of the selected currency its bucket key — monthly `YEAR-MM`
(zero-padded month), weekly `YEAR-Www` with the week number computed from
the day-of-year offset plus the day-of-week of January 1 — and sums amounts
per bucket (other types and currencies excluded).  Membership: `(k, v)` is a
bucket of the result iff some retained transaction has key `k` and `v` is
the sum of the retained amounts with key `k`.  The buckets are returned
strictly ascending by key string, and for valid dates with four-digit years
this key order is monotone in chronological order, so the lexical order of
the keys coincides with the chronological order of the buckets.  The
computation is a pure function of the transactions' own dates; no current
time is consulted. -/
theorem grouped_correct (ts : List Transaction) (c : String) (p : Period) :
    (grouped ts c p).Pairwise (fun a b => a.1 < b.1) ∧
    (∀ k v, (k, v) ∈ grouped ts c p ↔
      ((∃ t ∈ ts.filter (fun t => t.type == TxType.expense && currOf t == c),
          bucketKey p t.date = k) ∧
       v = (((ts.filter (fun t => t.type == TxType.expense && currOf t == c)).filter
          (fun t => bucketKey p t.date == k)).map Transaction.amount).sum)) ∧
    (∀ d1 d2 : YMD, ValidDate d1 → ValidDate d2 →
      1000 ≤ d1.y → d1.y ≤ 9999 → 1000 ≤ d2.y → d2.y ≤ 9999 →
      chronLE d1 d2 → bucketKey p d1 ≤ bucketKey p d2) := by
  have hnodup : (keysOf
      ((ts.filter (fun t => t.type == TxType.expense && currOf t == c)).foldl
        (fun m t => addToBucket m (bucketKey p t.date) t.amount) [])).Nodup :=
    keys_foldBuckets_nodup p _ [] (by simp [keysOf])
  have hperm : (grouped ts c p).Perm
      ((ts.filter (fun t => t.type == TxType.expense && currOf t == c)).foldl
        (fun m t => addToBucket m (bucketKey p t.date) t.amount) []) :=
    sortByKey_perm _
  refine ⟨?_, ?_, ?_⟩
  · have h1 := sortByKey_sorted
      ((ts.filter (fun t => t.type == TxType.expense && currOf t == c)).foldl
        (fun m t => addToBucket m (bucketKey p t.date) t.amount) [])
    have h2 : ((grouped ts c p).map Prod.fst).Nodup :=
      (hperm.map Prod.fst).nodup_iff.mpr hnodup
    have h3 : (grouped ts c p).Pairwise (fun a b => a.1 ≠ b.1) :=
      List.pairwise_map.mp h2
    exact (h1.and h3).imp (fun h => lt_of_le_of_ne h.1 h.2)
  · intro k v
    rw [hperm.mem_iff, mem_iff_lookupQ _ _ _ hnodup, lookupQ_eq_some_iff,
      mem_keys_foldBuckets, lookupD_foldBuckets]
    simp [keysOf, lookupD, lookupQ_nil]
  · intro d1 d2 hv1 hv2 hy1 hy2 hy3 hy4 hc
    exact bucketKey_mono p d1 d2 hv1 hv2 hy1 hy2 hy3 hy4 hc

/-- **C3 witness.** On the specification's §8 scenario dates, the chronology
hypotheses are discharged concretely: 2024-01-05 precedes 2024-02-01, and
its monthly and weekly bucket keys are accordingly not larger. -/
theorem grouped_correct_witness :
    bucketKey Period.monthly ⟨2024, 1, 5⟩ ≤ bucketKey Period.monthly ⟨2024, 2, 1⟩ ∧
    bucketKey Period.weekly ⟨2024, 1, 5⟩ ≤ bucketKey Period.weekly ⟨2024, 2, 1⟩ := by
  have hm := grouped_correct [txA, txB, txC] "USD" Period.monthly
  have hw := grouped_correct [txA, txB, txC] "USD" Period.weekly
  exact ⟨hm.2.2 ⟨2024, 1, 5⟩ ⟨2024, 2, 1⟩ (by decide) (by decide) (by decide)
      (by decide) (by decide) (by decide) (by decide),
    hw.2.2 ⟨2024, 1, 5⟩ ⟨2024, 2, 1⟩ (by decide) (by decide) (by decide)
      (by decide) (by decide) (by decide) (by decide)⟩

end BudgetTracker
